import Mathlib

/-
Verification of the core algorithms of the sparql-update-data-generator
toolchain against a shallow Lean embedding of its Rust sources:

* `src/sparql.rs`            — query ordering and the update-query writers
* `src/rdf/triple_compressor/compressor.rs`   — the dictionary compressor
* `src/rdf/triple_compressor/decompressor.rs` — the dictionary decompressor
* `src/rdf/triple_compressor/mod.rs`          — sorted containment lookup
* `src/rdf/triple_generator.rs` — the sampling strategies

Machine integers (`u64`, `usize`) are modelled as `Nat`; all values in play
are far below `2 ^ 64` and no arithmetic in the modelled code paths can
overflow, so no reduction modulo `2 ^ 64` is inserted.  Byte strings are
modelled as `List Char`.  The external hash function (`ahash`) is modelled
as an explicit function parameter.  Panics and hard errors are modelled
with `Except String`.
-/

namespace SparqlGen

/-! ### Definitions (shallow embedding of the source) -/

/-! ## Query types and slots (`src/sparql.rs`) -/
/-- `QueryType` from `src/sparql.rs`; the derived Rust `Ord` makes
`InsertData < DeleteData` (declaration order). -/
inductive QueryType
  | InsertData
  | DeleteData
deriving DecidableEq, Repr

/-- Boolean `≤` on `QueryType` matching the derived Rust `Ord`. -/
def QueryType.qle : QueryType → QueryType → Bool
  | .InsertData, _ => true
  | .DeleteData, .InsertData => false
  | .DeleteData, .DeleteData => true

/-- One expanded query slot `(n_triples_per_query, query_type)`, exactly the
tuple built by `generate_queries` in `src/sparql.rs`. -/
abbrev Slot := Nat × QueryType

/-- Boolean `≤` on slots matching the derived lexicographic `Ord` on the
Rust tuple `(usize, QueryType)` used by `tmp.sort_unstable()`. -/
def slotLE (a b : Slot) : Bool :=
  (a.1 < b.1) || ((a.1 = b.1) && QueryType.qle a.2 b.2)

/-- `QuerySpec` from `src/sparql.rs`. -/
structure QuerySpec where
  n_queries : Nat
  n_triples_per_query : Nat
  query_type : QueryType

/-- The spec-expansion stage of `generate_queries`: each spec contributes
`n_queries` copies of the slot `(n_triples_per_query, query_type)`. -/
def expandSpecs (specs : List QuerySpec) : List Slot :=
  specs.flatMap fun sp => List.replicate sp.n_queries (sp.n_triples_per_query, sp.query_type)

/-- The `OutputOrder::SortedSizeAscAlternateInsertDelete` arm of
`generate_queries` (`src/sparql.rs`, lines 70-86): reject odd lengths, sort
the slots by the derived tuple order, partition by type, and interleave the
two partitions pairwise via `zip`. -/
def sortSlotsAlternate (slots : List Slot) : Except String (List Slot) :=
  if slots.length % 2 ≠ 0 then
    .error "need even number of queries to be able to sort as alternating"
  else
    let sorted := slots.mergeSort slotLE
    let parts := sorted.partition fun s => s.2 = QueryType.InsertData
    .ok ((parts.1.zip parts.2).flatMap fun id => [id.1, id.2])

/-- A slot list alternates `InsertData, DeleteData, InsertData, …`. -/
def alternatesInsertDelete : List Slot → Bool
  | [] => true
  | (_, .InsertData) :: (_, .DeleteData) :: rest => alternatesInsertDelete rest
  | _ => false

/-- The query-construction stage of `generate_queries` (`src/sparql.rs`,
lines 92-100): one query per ordered slot, pulling a batch from the
stateful triple-generator factory. -/
def queriesOfSlots {σ : Type} (gen : σ → Nat → List (Nat × Nat × Nat) × σ) :
    σ → List Slot → List (QueryType × Nat × List (Nat × Nat × Nat))
  | _, [] => []
  | st, (n, qt) :: rest =>
    let bs := gen st n
    (qt, n, bs.1) :: queriesOfSlots gen bs.2 rest

/-! ## Compressed triples and sorted containment
(`src/rdf/triple_compressor/mod.rs`) -/
/-- A compressed triple `[TermId; 3]` (`CompressedTriple` in
`src/rdf/triple_compressor/mod.rs`). -/
abbrev CTriple := Nat × Nat × Nat

/-- The derived lexicographic (position-major) comparison on `[u64; 3]`:
compare subject ids, then predicate ids, then object ids. -/
def tripleCmp (a b : CTriple) : Ordering :=
  if a.1 < b.1 then .lt else if b.1 < a.1 then .gt
  else if a.2.1 < b.2.1 then .lt else if b.2.1 < a.2.1 then .gt
  else if a.2.2 < b.2.2 then .lt else if b.2.2 < a.2.2 then .gt
  else .eq

/-- The loop of Rust `slice::binary_search_by` over an interval
`[lo, hi)`, specialised to the derived `[u64; 3]` order; returns whether
the search found the probe (`is_ok()` on the Rust result). -/
def binarySearchGo (l : List CTriple) (t : CTriple) (lo hi : Nat) : Bool :=
  if _h : lo < hi then
    let mid := lo + (hi - lo) / 2
    match tripleCmp (l.getD mid (0, 0, 0)) t with
    | .lt => binarySearchGo l t (mid + 1) hi
    | .gt => binarySearchGo l t lo mid
    | .eq => true
  else false
termination_by hi - lo
decreasing_by all_goals omega

/-- `CompressedRdfTriples::contains` from
`src/rdf/triple_compressor/mod.rs`: `self.0.binary_search(triple).is_ok()`. -/
def containsTriple (l : List CTriple) (t : CTriple) : Bool :=
  binarySearchGo l t 0 l.length

/-! ## Triple generators (`src/rdf/triple_generator.rs`) -/
/-- The fixed concatenated-and-filtered triple sequence of
`fixed_size_changeset_triple_generator`: the changesets from `start_off`
onward, then the ones before `start_off` in reverse, flattened, and
filtered by containment in the main dataset. -/
def fixedSizeChangesetSeq (changesets : List (List CTriple)) (dataset : List CTriple)
    (start_off : Nat) : List CTriple :=
  ((changesets.drop start_off ++ (changesets.take start_off).reverse).flatMap id).filter
    fun triple => containsTriple dataset triple

/-- One call of the closure returned by
`fixed_size_changeset_triple_generator` (`src/rdf/triple_generator.rs`,
lines 43-63): rebuild the chained-and-filtered iterator from the captured
`start_off` and take the first `size_hint` triples. -/
def fixed_size_changeset_triple_generator (changesets : List (List CTriple))
    (dataset : List CTriple) (start_off : Nat) (size_hint : Nat) : List CTriple :=
  (((changesets.drop start_off ++ (changesets.take start_off).reverse).flatMap id).filter
    fun triple => containsTriple dataset triple).take size_hint

/-- One call of the closure returned by `random_distinct_triple_generator`
(`src/rdf/triple_generator.rs`, lines 16-27): consume the next `size_hint`
remaining sampled indices (stopping early when exhausted) and dereference
each into the triple array. -/
def randomDistinctCall (triples : List CTriple) (ixs : List Nat) (size_hint : Nat) :
    List CTriple × List Nat :=
  ((ixs.take size_hint).map fun ix => triples.getD ix (0, 0, 0), ixs.drop size_hint)

/-- A whole workload over one generator instance: one call per size hint,
threading the iterator over the remaining sampled indices. -/
def randomDistinctRun (triples : List CTriple) : List Nat → List Nat → List (List CTriple)
  | _, [] => []
  | ixs, hint :: hints =>
    let c := randomDistinctCall triples ixs hint
    c.1 :: randomDistinctRun triples c.2 hints

/-- The construction step of `random_distinct_triple_generator`
(`src/rdf/triple_generator.rs`, lines 11-14): the freshly sampled distinct
indices (`rand::seq::index::sample`, modelled as the parameter `sample`)
are sorted ascending before the closure iterates over them. -/
def random_distinct_triple_generator (sample : List Nat) : List Nat :=
  sample.mergeSort fun a b => a ≤ b

/-! ## Dictionary, decompressor and the update-query writers
(`src/rdf/triple_compressor/compressor.rs`, `decompressor.rs`,
`src/sparql.rs`, `src/main.rs`) -/
/-- Term bytes (`Vec<u8>` / `&[u8]`), modelled as a list of characters. -/
abbrev Bytes := List Char

/-- Byte string of a string literal. -/
def bs (s : String) : Bytes := s.data

/-- The mutable dictionary `BTreeMap<TripleElementId, Vec<u8>>`: an
association list kept sorted strictly ascending by key. -/
abbrev Translations := List (Nat × Bytes)

/-- `BTreeMap::entry(k).or_insert(v)`: insert at the sorted position when
the key is absent, keep the stored value when it is present. -/
def btInsert (k : Nat) (v : Bytes) : Translations → Translations
  | [] => [(k, v)]
  | (k', v') :: rest =>
    if k < k' then (k, v) :: (k', v') :: rest
    else if k = k' then (k', v') :: rest
    else (k', v') :: btInsert k v rest

/-- `BTreeMap::get`: first (unique) entry with the given key. -/
def btLookup (k : Nat) : Translations → Option Bytes
  | [] => none
  | (k', v') :: rest => if k = k' then some v' else btLookup k rest

/-- A decompressed triple of borrowed byte slices (`RawTriple` in
`src/rdf/triple_compressor/mod.rs`). -/
abbrev RawTriple := Bytes × Bytes × Bytes

/-- `RdfTripleDecompressor::decompress_rdf_triple`: resolve the three ids
against the dictionary state; `none` as soon as one id is unknown.  (The
on-disk frozen form written by `save_state` stores exactly the entries of
the sorted dictionary — see `save_state_header_invariants`.) -/
def decompress_rdf_triple (m : Translations) (t : CTriple) : Option RawTriple := do
  let s ← btLookup t.1 m
  let p ← btLookup t.2.1 m
  let o ← btLookup t.2.2 m
  pure (s, p, o)

/-- `OutputFormat` from `src/main.rs`. -/
inductive OutputFormat
  | Query
  | NTriples
deriving DecidableEq, Repr

/-- The per-triple fragment `"S P O . "` written inside a query line
(`src/sparql.rs`, lines 188-194 and 219-225). -/
def tripleFragment (t : RawTriple) : Bytes :=
  t.1 ++ bs " " ++ t.2.1 ++ bs " " ++ t.2.2 ++ bs " . "

/-- The per-triple line `"S P O .\n"` written for N-Triples output
(`src/sparql.rs`, lines 196-205 and 277-283). -/
def tripleLine (t : RawTriple) : Bytes :=
  t.1 ++ bs " " ++ t.2.1 ++ bs " " ++ t.2.2 ++ bs " .\n"

/-- The main-output bytes written by the `write_query` closure of
`write_update_data_queries` (`src/sparql.rs`, lines 174-240).  The closure
decides between `INSERT DATA` and `DELETE DATA` purely on whether a
prepare writer was handed to it. -/
def write_query_main (hasPrepare : Bool) (query : List RawTriple) : Bytes :=
  if hasPrepare then
    bs "INSERT DATA \x7b " ++ (query.map tripleFragment).flatten ++ bs "\x7d\n"
  else
    bs "DELETE DATA \x7b " ++ (query.map tripleFragment).flatten ++ bs "\x7d\n"

/-- The prepare-output bytes written by the `write_query` closure when a
prepare writer is present. -/
def write_query_prepare (fmt : OutputFormat) (query : List RawTriple) : Bytes :=
  if fmt = OutputFormat.Query then
    bs "DELETE DATA \x7b " ++ (query.map tripleFragment).flatten ++ bs "\x7d\n"
  else
    (query.map tripleLine).flatten

/-- `write_update_data_queries` (`src/sparql.rs`, lines 141-254): main and
prepare output for a query sequence.  `DeleteData` queries always go
through the no-prepare branch of `write_query`; `InsertData` queries are
passed `prepare_writer.as_mut()`, which is `None` whenever no prepare file
was configured (as in `generate_linear_no_size_hint`). -/
def write_update_data_queries (prepare : Option OutputFormat) :
    List (QueryType × List RawTriple) → Bytes × Bytes
  | [] => ([], [])
  | (qt, query) :: rest =>
    let r := write_update_data_queries prepare rest
    match qt with
    | .DeleteData => (write_query_main false query ++ r.1, r.2)
    | .InsertData =>
      match prepare with
      | some fmt => (write_query_main true query ++ r.1, write_query_prepare fmt query ++ r.2)
      | none => (write_query_main false query ++ r.1, r.2)

/-- `write_ntriples_file` (`src/sparql.rs`, lines 256-302): plain
concatenated N-Triples, the query type ignored. -/
def write_ntriples_file (queries : List (QueryType × List RawTriple)) : Bytes :=
  (queries.map fun q => (q.2.map tripleLine).flatten).flatten

/-- `generate_linear_no_size_hint` (`src/sparql.rs`, lines 105-139): filter
each input's triples against the optional exclude dataset, decompress them
(`expect` on an unknown id modelled as `none`), and write them as one query
per input — with **no** prepare writer. -/
def generate_linear_no_size_hint (m : Translations) (exclude : Option (List CTriple))
    (generators : List (QueryType × List CTriple)) (output_format : OutputFormat) :
    Option Bytes := do
  let queries ← generators.mapM fun g => do
    let kept := g.2.filter fun triple =>
      match exclude with
      | some ex => !containsTriple ex triple
      | none => true
    let ts ← kept.mapM fun t => decompress_rdf_triple m t
    pure (g.1, ts)
  match output_format with
  | .Query => pure (write_update_data_queries none queries).1
  | .NTriples => pure (write_ntriples_file queries)

/-- The changeset classification of the `Replicate` subcommand
(`src/main.rs`, lines 436-465): with `Query` output, filenames ending in
`added.compressed_nt` become `InsertData` inputs and filenames ending in
`removed.compressed_nt` become `DeleteData` inputs; anything else is
skipped with a diagnostic.  With `NTriples` output a dummy `DeleteData`
tag is used. -/
def classifyReplicate (output_format : OutputFormat) (fname : Bytes) : Option QueryType :=
  if output_format = OutputFormat.Query then
    if (bs "added.compressed_nt").isSuffixOf fname then some QueryType.InsertData
    else if (bs "removed.compressed_nt").isSuffixOf fname then some QueryType.DeleteData
    else none
  else some QueryType.DeleteData

/-- The whole `Replicate` pipeline over already-loaded datasets: classify
each `(filename, triples)` pair, then hand the classified sequence to
`generate_linear_no_size_hint`. -/
def replicate (m : Translations) (exclude : Option (List CTriple))
    (output_format : OutputFormat) (datasets : List (Bytes × List CTriple)) : Option Bytes :=
  generate_linear_no_size_hint m exclude
    (datasets.filterMap fun d => (classifyReplicate output_format d.1).map fun qt => (qt, d.2))
    output_format

/-! ## The compressor (`src/rdf/triple_compressor/compressor.rs`) -/
/-- `RdfTripleCompressor`: the mutable dictionary plus the dedup set of
triple hashes.  The two `ahash` instances (on term bytes and on `[u64; 3]`)
are modelled as explicit function parameters `th` and `tph` of the
operations. -/
structure RdfTripleCompressor where
  translations : Translations
  dedup : List Nat

/-- `found_new_triple` (compressor.rs, lines 28-31): insert the triple
hash into the dedup set, reporting whether it was new. -/
def found_new_triple (tph : CTriple → Nat) (c : RdfTripleCompressor) (t : CTriple) :
    RdfTripleCompressor × Bool :=
  let h := tph t
  if h ∈ c.dedup then (c, false) else ({ c with dedup := h :: c.dedup }, true)

/-- The id triple of a raw triple: `hash_single` on each term. -/
def hashTriple (th : Bytes → Nat) (t : RawTriple) : CTriple :=
  (th t.1, th t.2.1, th t.2.2)

/-- `compress_raw_rdf_triple` (compressor.rs, lines 97-113): hash the three
terms, insert each absent one into the dictionary (subject, predicate,
object in that order), and return the id triple.
`compress_parsed_rdf_triple` (lines 75-95) interns the parser-rendered
bytes identically. -/
def compress_raw_rdf_triple (th : Bytes → Nat) (c : RdfTripleCompressor) (t : RawTriple) :
    RdfTripleCompressor × CTriple :=
  let m1 := btInsert (th t.1) t.1 c.translations
  let m2 := btInsert (th t.2.1) t.2.1 m1
  let m3 := btInsert (th t.2.2) t.2.2 m2
  ({ translations := m3, dedup := c.dedup }, hashTriple th t)

/-- `slice::splitn(3, ...)`: split at the first space, if any. -/
def splitFirstSpace : Bytes → Option (Bytes × Bytes)
  | [] => none
  | c :: rest =>
    if c = ' ' then some ([], rest)
    else
      match splitFirstSpace rest with
      | none => none
      | some pr => some (c :: pr.1, pr.2)

/-- One iteration of the reader loop of `compress_raw_rdf_triple_file`
(compressor.rs, lines 156-180): skip empty and `#` comment lines, split
into subject / predicate / object at the first two spaces (a missing field
is an `unwrap` panic, a missing `" ."` terminator an `assert!` panic, both
modelled as errors), strip the terminator, and skip blank-node lines. -/
def processRawLine (line : Bytes) : Except String (Option RawTriple) :=
  if line.isEmpty || line.head? = some '#' then .ok none
  else
    match splitFirstSpace line with
    | none => .error "called Option::unwrap() on a None value"
    | some sp =>
      match splitFirstSpace sp.2 with
      | none => .error "called Option::unwrap() on a None value"
      | some pr =>
        if (bs " .").isSuffixOf pr.2 then
          let object := pr.2.take (pr.2.length - 2)
          if sp.1.head? = some '_' || object.head? = some '_' then .ok none
          else .ok (some (sp.1, pr.1, object))
        else .error "assertion failed: object.ends_with(b\" .\")"

/-- `compress_raw_rdf_triple_file` (compressor.rs, lines 150-184): process
the lines in order; skipped lines contribute nothing, a malformed line
aborts (the Rust code panics), and each accepted triple is interned and —
unless suppressed by dedup — emitted in order to the writer task. -/
def compress_raw_rdf_triple_file (th : Bytes → Nat) (tph : CTriple → Nat) (dedup : Bool) :
    RdfTripleCompressor → List Bytes → Except String (RdfTripleCompressor × List CTriple)
  | c, [] => .ok (c, [])
  | c, line :: lines =>
    match processRawLine line with
    | .error e => .error e
    | .ok none => compress_raw_rdf_triple_file th tph dedup c lines
    | .ok (some t) =>
      let ct := compress_raw_rdf_triple th c t
      let keep := if dedup then found_new_triple tph ct.1 ct.2 else (ct.1, true)
      match compress_raw_rdf_triple_file th tph dedup keep.1 lines with
      | .error e => .error e
      | .ok r => .ok (r.1, if keep.2 then ct.2 :: r.2 else r.2)

/-- `rio_api::model::Subject`, restricted to the variants an N-Triples
parse can produce. -/
inductive RioSubject
  | namedNode (iri : Bytes)
  | blankNode (id : Bytes)

/-- `rio_api::model::Term` as produced for N-Triples objects. -/
inductive RioTerm
  | namedNode (iri : Bytes)
  | blankNode (id : Bytes)
  | literal (lit : Bytes)

/-- A parsed triple handed to the `parse_step` closure.  The payloads are
the `to_string()` renderings interned by `compress_parsed_rdf_triple`
(the textual parser itself is an external collaborator). -/
structure RioTriple where
  subject : RioSubject
  predicate : Bytes
  object : RioTerm

/-- The retention filter of the parser closure (compressor.rs, lines
122-133): keep named-node subjects and named-node or literal objects. -/
def acceptParsedTriple : RioTriple → Option RawTriple
  | ⟨.namedNode s, p, .namedNode o⟩ => some (s, p, o)
  | ⟨.namedNode s, p, .literal o⟩ => some (s, p, o)
  | _ => none

/-- `compress_parsed_rdf_triple_file` (compressor.rs, lines 115-148) over
the sequence of `parse_step` outcomes: a parse error is reported (the
`eprintln!`, collected in the third component) and the loop continues with
the next record; the function only ever constructs `Ok`. -/
def compress_parsed_rdf_triple_file (th : Bytes → Nat) (tph : CTriple → Nat) (dedup : Bool) :
    RdfTripleCompressor → List (Except String RioTriple) →
      Except String (RdfTripleCompressor × List CTriple × List String)
  | c, [] => .ok (c, [], [])
  | c, .error e :: records =>
    match compress_parsed_rdf_triple_file th tph dedup c records with
    | .ok r => .ok (r.1, r.2.1, e :: r.2.2)
    | .error e' => .error e'
  | c, .ok t :: records =>
    match acceptParsedTriple t with
    | none => compress_parsed_rdf_triple_file th tph dedup c records
    | some raw =>
      let ct := compress_raw_rdf_triple th c raw
      let keep := if dedup then found_new_triple tph ct.1 ct.2 else (ct.1, true)
      match compress_parsed_rdf_triple_file th tph dedup keep.1 records with
      | .error e => .error e
      | .ok r => .ok (r.1, (if keep.2 then ct.2 :: r.2.1 else r.2.1), r.2.2)

/-- `decompress_rdf_triple_file` (decompressor.rs, lines 59-76): one output
line `"S P O ."` per record, in record order (the writer appends the
newline); `none` models the `expect` panic on an unknown id. -/
def decompress_rdf_triple_file (m : Translations) (ts : List CTriple) : Option (List Bytes) :=
  ts.mapM fun t => (decompress_rdf_triple m t).map fun spo =>
    spo.1 ++ bs " " ++ spo.2.1 ++ bs " " ++ spo.2.2 ++ bs " ."

/-- The accepted (non-skipped, well-formed) raw triples of an input, in
input order. -/
def acceptedTriples (lines : List Bytes) : List RawTriple :=
  lines.filterMap fun line =>
    match processRawLine line with
    | .ok (some t) => some t
    | _ => none

/-- All terms of the accepted triples of an input. -/
def rawTerms (lines : List Bytes) : List Bytes :=
  (acceptedTriples lines).flatMap fun t => [t.1, t.2.1, t.2.2]

/-- The normal form C3 ascribes to a kept input line: the three split
fields re-joined by single spaces with the `" ."` terminator; skipped
lines removed. -/
def normalizeAcceptedLine (line : Bytes) : Option Bytes :=
  match processRawLine line with
  | .ok (some t) => some (t.1 ++ bs " " ++ t.2.1 ++ bs " " ++ t.2.2 ++ bs " .")
  | _ => none

/-- The header records written by `save_state` (compressor.rs, lines
47-54): one `(id, start, end)` per dictionary entry in iteration (key)
order, with the running data-segment offset. -/
def saveHeader (off : Nat) : Translations → List (Nat × Nat × Nat)
  | [] => []
  | (k, v) :: rest => (k, off, off + v.length) :: saveHeader (off + v.length) rest

/-- `save_state` (compressor.rs, lines 39-61): the header records and the
data segment (the concatenated term bytes, written in the same iteration
order).  The leading `header_byte_size` framing word is `24 * m.length`
and is not part of the modelled payload. -/
def save_state (m : Translations) : List (Nat × Nat × Nat) × Bytes :=
  (saveHeader 0 m, (m.map Prod.snd).flatten)

/-- `data_segment[start..end]`. -/
def byteSlice (data : Bytes) (s e : Nat) : Bytes := (data.take e).drop s

/-- First-occurrence deduplication (specification-side): keep an element
only if it was not seen before. -/
def firstOccurAux {α : Type} [DecidableEq α] (seen : List α) : List α → List α
  | [] => []
  | x :: xs => if x ∈ seen then firstOccurAux seen xs else x :: firstOccurAux (x :: seen) xs

/-- First-occurrence deduplication of a list. -/
def firstOccur {α : Type} [DecidableEq α] (l : List α) : List α := firstOccurAux [] l

/-- The emission filter realised by `found_new_triple` along a stream of
compressed triples: drop a triple whose hash is already in the seen set,
otherwise emit it and remember its hash. -/
def emitFilter (tph : CTriple → Nat) (seen : List Nat) : List CTriple → List CTriple
  | [] => []
  | t :: ts =>
    if tph t ∈ seen then emitFilter tph seen ts
    else t :: emitFilter tph (tph t :: seen) ts

/-- Several input files compressed by one compressor instance (the
`Opts::Compress` loop of `src/main.rs`): dictionary and dedup state thread
across files; one output record list per file. -/
def compressFiles (th : Bytes → Nat) (tph : CTriple → Nat) (dedup : Bool) :
    RdfTripleCompressor → List (List Bytes) →
      Except String (RdfTripleCompressor × List (List CTriple))
  | c, [] => .ok (c, [])
  | c, file :: files =>
    match compress_raw_rdf_triple_file th tph dedup c file with
    | .error e => .error e
    | .ok r =>
      match compressFiles th tph dedup r.1 files with
      | .error e => .error e
      | .ok rs => .ok (rs.1, r.2 :: rs.2)

/-! ## C6: first-occurrence deduplication -/
/-- The seen-hash set accumulated by `found_new_triple` along a stream of
compressed triples. -/
def emitSeen (tph : CTriple → Nat) (seen : List Nat) : List CTriple → List Nat
  | [] => seen
  | t :: ts =>
    if tph t ∈ seen then emitSeen tph seen ts
    else emitSeen tph (tph t :: seen) ts

/-! ### Theorems -/

/-! Helper lemmas about the interleaving stage. -/
theorem slotLE_trans (a b c : Slot) (hab : slotLE a b = true) (hbc : slotLE b c = true) :
    slotLE a c = true := by
  obtain ⟨a1, a2⟩ := a; obtain ⟨b1, b2⟩ := b; obtain ⟨c1, c2⟩ := c
  simp only [slotLE, Bool.or_eq_true, Bool.and_eq_true, decide_eq_true_eq] at *
  rcases hab with h1 | ⟨h1, h2⟩ <;> rcases hbc with h3 | ⟨h3, h4⟩
  · exact Or.inl (Nat.lt_trans h1 h3)
  · exact Or.inl (h3 ▸ h1)
  · exact Or.inl (h1 ▸ h3)
  · refine Or.inr ⟨h1.trans h3, ?_⟩
    cases a2 <;> cases b2 <;> cases c2 <;> simp_all [QueryType.qle]

theorem slotLE_total (a b : Slot) : (slotLE a b || slotLE b a) = true := by
  obtain ⟨a1, a2⟩ := a; obtain ⟨b1, b2⟩ := b
  simp only [slotLE, Bool.or_eq_true, Bool.and_eq_true, decide_eq_true_eq]
  rcases Nat.lt_trichotomy a1 b1 with h | h | h
  · exact Or.inl (Or.inl h)
  · cases a2 <;> cases b2 <;> simp_all [QueryType.qle]
  · exact Or.inr (Or.inl h)

theorem interleave_alternates (ins del : List Slot)
    (hins : ∀ s ∈ ins, s.2 = QueryType.InsertData)
    (hdel : ∀ s ∈ del, s.2 = QueryType.DeleteData) :
    alternatesInsertDelete ((ins.zip del).flatMap fun id => [id.1, id.2]) = true := by
  induction ins generalizing del with
  | nil => simp [alternatesInsertDelete]
  | cons i is ih =>
    cases del with
    | nil => simp [alternatesInsertDelete]
    | cons d ds =>
      obtain ⟨isz, ity⟩ := i
      obtain ⟨dsz, dty⟩ := d
      have h1 : ity = QueryType.InsertData := hins (isz, ity) (List.mem_cons_self _ _)
      have h2 : dty = QueryType.DeleteData := hdel (dsz, dty) (List.mem_cons_self _ _)
      subst h1; subst h2
      simpa [alternatesInsertDelete] using
        ih ds (fun s hs => hins s (List.mem_cons_of_mem _ hs))
          (fun s hs => hdel s (List.mem_cons_of_mem _ hs))

theorem interleave_filter (p : Slot → Bool) (ins del : List Slot)
    (hins : ∀ s ∈ ins, p s = true) (hdel : ∀ s ∈ del, p s = false) :
    ((ins.zip del).flatMap fun id => [id.1, id.2]).filter p
      = ins.take del.length := by
  induction ins generalizing del with
  | nil => simp
  | cons i is ih =>
    cases del with
    | nil => simp
    | cons d ds =>
      have h1 : p i = true := hins i (List.mem_cons_self _ _)
      have h2 : p d = false := hdel d (List.mem_cons_self _ _)
      have ih' := ih ds (fun s hs => hins s (List.mem_cons_of_mem _ hs))
        (fun s hs => hdel s (List.mem_cons_of_mem _ hs))
      simp [h1, h2, ih']

theorem interleave_filter_compl (p : Slot → Bool) (ins del : List Slot)
    (hins : ∀ s ∈ ins, p s = true) (hdel : ∀ s ∈ del, p s = false) :
    ((ins.zip del).flatMap fun id => [id.1, id.2]).filter (fun s => !p s)
      = del.take ins.length := by
  induction ins generalizing del with
  | nil => simp
  | cons i is ih =>
    cases del with
    | nil => simp
    | cons d ds =>
      have h1 : p i = true := hins i (List.mem_cons_self _ _)
      have h2 : p d = false := hdel d (List.mem_cons_self _ _)
      have ih' := ih ds (fun s hs => hins s (List.mem_cons_of_mem _ hs))
        (fun s hs => hdel s (List.mem_cons_of_mem _ hs))
      simp [h1, h2, ih']

theorem length_interleave (ins del : List Slot) :
    ((ins.zip del).flatMap fun id => [id.1, id.2]).length = 2 * min ins.length del.length := by
  induction ins generalizing del with
  | nil => simp
  | cons i is ih =>
    cases del with
    | nil => simp
    | cons d ds =>
      have := ih ds
      simp only [List.zip_cons_cons, List.flatMap_cons, List.length_append, List.length_cons,
        List.length_nil] at *
      omega

theorem slotLE_size {a b : Slot} (h : slotLE a b = true) : a.1 ≤ b.1 := by
  simp only [slotLE, Bool.or_eq_true, Bool.and_eq_true, decide_eq_true_eq] at h
  rcases h with h | ⟨h, _⟩
  · exact Nat.le_of_lt h
  · exact Nat.le_of_eq h

theorem notInsert_eq_delete {s : Slot} (h : ¬s.2 = QueryType.InsertData) :
    s.2 = QueryType.DeleteData := by
  cases hs : s.2 <;> simp_all

/-- C4: on an even-length expanded slot list, the
`SortedSizeAscAlternateInsertDelete` ordering succeeds and its output
alternates query types starting with `InsertData`, and within each type the
sizes are non-decreasing. -/
theorem sortSlotsAlternate_alternating (slots : List Slot) (h : slots.length % 2 = 0) :
    ∃ r, sortSlotsAlternate slots = .ok r ∧
      alternatesInsertDelete r = true ∧
      (r.filter fun s => s.2 = QueryType.InsertData).Pairwise (fun a b => a.1 ≤ b.1) ∧
      (r.filter fun s => s.2 = QueryType.DeleteData).Pairwise (fun a b => a.1 ≤ b.1) := by
  set p : Slot → Bool := fun s => decide (s.2 = QueryType.InsertData) with hp
  set sorted := slots.mergeSort slotLE with hsorted
  set ins := sorted.filter p with hins_def
  set del := sorted.filter (not ∘ p) with hdel_def
  set r := ((ins.zip del).flatMap fun id => [id.1, id.2]) with hr
  have hmem_ins : ∀ s ∈ ins, s.2 = QueryType.InsertData := by
    intro s hs
    have := List.of_mem_filter hs
    simpa [hp] using this
  have hmem_del : ∀ s ∈ del, s.2 = QueryType.DeleteData := by
    intro s hs
    have := List.of_mem_filter hs
    simp only [Function.comp, hp, Bool.not_eq_true', decide_eq_false_iff_not] at this
    exact notInsert_eq_delete this
  have hsorted_pw : sorted.Pairwise (fun a b => slotLE a b = true) :=
    List.sorted_mergeSort slotLE_trans slotLE_total slots
  have hpw_ins : ins.Pairwise (fun a b => a.1 ≤ b.1) :=
    (hsorted_pw.filter p).imp slotLE_size
  have hpw_del : del.Pairwise (fun a b => a.1 ≤ b.1) :=
    (hsorted_pw.filter (not ∘ p)).imp slotLE_size
  refine ⟨r, ?_, ?_, ?_, ?_⟩
  · simp only [sortSlotsAlternate, h]
    simp [List.partition_eq_filter_filter, hr, ← hins_def, ← hdel_def, ← hsorted]
  · exact interleave_alternates ins del hmem_ins hmem_del
  · have hfil : r.filter p = ins.take del.length :=
      interleave_filter p ins del
        (fun s hs => by simpa [hp] using hmem_ins s hs)
        (fun s hs => by simp [hp, hmem_del s hs])
    simpa [hp] using hfil ▸ hpw_ins.take
  · have hfil : r.filter (fun s => !p s) = del.take ins.length :=
      interleave_filter_compl p ins del
        (fun s hs => by simpa [hp] using hmem_ins s hs)
        (fun s hs => by simp [hp, hmem_del s hs])
    have hcongr : r.filter (fun s => decide (s.2 = QueryType.DeleteData))
        = r.filter (fun s => !p s) := by
      refine List.filter_congr fun s _ => ?_
      cases hs : s.2 <;> simp [hp, hs]
    rw [hcongr, hfil]
    exact hpw_del.take

/-- Witness for C4 at the concrete slot list `[(10, Insert), (20, Delete)]`. -/
theorem sortSlotsAlternate_alternating_witness :
    ([(10, QueryType.InsertData), (20, QueryType.DeleteData)] : List Slot).length % 2 = 0 ∧
      ∃ r, sortSlotsAlternate [(10, QueryType.InsertData), (20, QueryType.DeleteData)] = .ok r ∧
        alternatesInsertDelete r = true ∧
        (r.filter fun s => s.2 = QueryType.InsertData).Pairwise (fun a b => a.1 ≤ b.1) ∧
        (r.filter fun s => s.2 = QueryType.DeleteData).Pairwise (fun a b => a.1 ≤ b.1) :=
  ⟨by decide, sortSlotsAlternate_alternating _ (by decide)⟩

theorem length_queriesOfSlots {σ : Type} (gen : σ → Nat → List (Nat × Nat × Nat) × σ)
    (st : σ) (slots : List Slot) : (queriesOfSlots gen st slots).length = slots.length := by
  induction slots generalizing st with
  | nil => rfl
  | cons s rest ih => obtain ⟨n, qt⟩ := s; simp [queriesOfSlots, ih]

/-- C9: with `SortedSizeAscAlternateInsertDelete` on an even-length slot
list with `k` inserts and `m` deletes, `generate_queries` succeeds and the
pairwise `zip` silently truncates the majority type: exactly
`2 * min k m` queries are produced, one per surviving slot. -/
theorem sortSlotsAlternate_zip_truncation {σ : Type}
    (gen : σ → Nat → List (Nat × Nat × Nat) × σ) (st : σ)
    (slots : List Slot) (h : slots.length % 2 = 0) :
    ∃ r, sortSlotsAlternate slots = .ok r ∧
      (queriesOfSlots gen st r).length
        = 2 * min (slots.countP fun s => s.2 = QueryType.InsertData)
            (slots.countP fun s => s.2 = QueryType.DeleteData) := by
  set p : Slot → Bool := fun s => decide (s.2 = QueryType.InsertData) with hp
  set sorted := slots.mergeSort slotLE with hsorted
  set ins := sorted.filter p with hins_def
  set del := sorted.filter (not ∘ p) with hdel_def
  set r := ((ins.zip del).flatMap fun id => [id.1, id.2]) with hr
  refine ⟨r, ?_, ?_⟩
  · simp only [sortSlotsAlternate, h]
    simp [List.partition_eq_filter_filter, hr, ← hins_def, ← hdel_def, ← hsorted]
  · rw [length_queriesOfSlots]
    have hlen : r.length = 2 * min ins.length del.length := length_interleave ins del
    rw [hlen]
    have hcins : ins.length = slots.countP p := by
      rw [hins_def, ← List.countP_eq_length_filter]
      exact ((slots.mergeSort_perm slotLE).countP_eq p)
    have hcdel : del.length = slots.countP fun s => s.2 = QueryType.DeleteData := by
      rw [hdel_def, ← List.countP_eq_length_filter]
      rw [(slots.mergeSort_perm slotLE).countP_eq]
      refine List.countP_congr fun s _ => ?_
      cases hs : s.2 <;> simp [hp, hs, Function.comp]
    rw [hcins, hcdel, hp]

/-- Witness for C9: two inserts, four deletes (k = 1, m = 2 per spec pair
scaling) — concretely `k = 1`, `m = 3`, so only `2 * 1 = 2` queries. -/
theorem sortSlotsAlternate_zip_truncation_witness :
    ([(10, QueryType.InsertData), (20, QueryType.DeleteData), (30, QueryType.DeleteData),
        (40, QueryType.DeleteData)] : List Slot).length % 2 = 0 ∧
      ∃ r, sortSlotsAlternate
            [(10, QueryType.InsertData), (20, QueryType.DeleteData), (30, QueryType.DeleteData),
              (40, QueryType.DeleteData)] = .ok r ∧
          (queriesOfSlots (fun u _ => ([], u)) () r).length
            = 2 * min
              (List.countP (fun s => s.2 = QueryType.InsertData)
                [(10, QueryType.InsertData), (20, QueryType.DeleteData), (30, QueryType.DeleteData),
                  (40, QueryType.DeleteData)])
              (List.countP (fun s => s.2 = QueryType.DeleteData)
                [(10, QueryType.InsertData), (20, QueryType.DeleteData), (30, QueryType.DeleteData),
                  (40, QueryType.DeleteData)]) :=
  ⟨by decide, sortSlotsAlternate_zip_truncation (fun u _ => ([], u)) () _ (by decide)⟩

theorem tripleCmp_eq_eq_iff (a b : CTriple) : tripleCmp a b = .eq ↔ a = b := by
  obtain ⟨a1, a2, a3⟩ := a; obtain ⟨b1, b2, b3⟩ := b
  simp only [tripleCmp, Prod.mk.injEq]
  split_ifs <;> simp_all <;> omega

theorem tripleCmp_flip (a b : CTriple) : tripleCmp a b = .lt ↔ tripleCmp b a = .gt := by
  obtain ⟨a1, a2, a3⟩ := a; obtain ⟨b1, b2, b3⟩ := b
  simp only [tripleCmp]
  split_ifs <;> simp_all <;> omega

theorem binarySearchGo_eq (l : List CTriple) (t : CTriple) (lo hi : Nat) :
    binarySearchGo l t lo hi =
      if lo < hi then
        match tripleCmp (l.getD (lo + (hi - lo) / 2) (0, 0, 0)) t with
        | .lt => binarySearchGo l t (lo + (hi - lo) / 2 + 1) hi
        | .gt => binarySearchGo l t lo (lo + (hi - lo) / 2)
        | .eq => true
      else false := by
  by_cases h : lo < hi
  · conv_lhs => rw [binarySearchGo]
    rw [dif_pos h, if_pos h]
  · conv_lhs => rw [binarySearchGo]
    rw [dif_neg h, if_neg h]

theorem binarySearchGo_sound (l : List CTriple) (t : CTriple) (lo hi : Nat)
    (hhi : hi ≤ l.length) (h : binarySearchGo l t lo hi = true) : t ∈ l := by
  rw [binarySearchGo_eq] at h
  by_cases hlt : lo < hi
  · rw [if_pos hlt] at h
    have hmidlt : lo + (hi - lo) / 2 < hi := by omega
    rcases hc : tripleCmp (l.getD (lo + (hi - lo) / 2) (0, 0, 0)) t with _ | _ | _ <;>
      rw [hc] at h
    · exact binarySearchGo_sound l t (lo + (hi - lo) / 2 + 1) hi hhi h
    · have hmlen : lo + (hi - lo) / 2 < l.length := Nat.lt_of_lt_of_le hmidlt hhi
      have heq : l.getD (lo + (hi - lo) / 2) (0, 0, 0) = t := (tripleCmp_eq_eq_iff _ _).mp hc
      rw [List.getD_eq_getElem _ _ hmlen] at heq
      exact heq ▸ List.getElem_mem hmlen
    · exact binarySearchGo_sound l t lo (lo + (hi - lo) / 2)
        (Nat.le_trans (Nat.le_of_lt hmidlt) hhi) h
  · rw [if_neg hlt] at h
    exact absurd h (by simp)
termination_by hi - lo
decreasing_by all_goals omega

theorem binarySearchGo_complete (l : List CTriple) (t : CTriple)
    (hsorted : l.Pairwise fun a b => tripleCmp a b ≠ .gt) (lo hi i : Nat)
    (hlo : lo ≤ i) (hihi : i < hi) (hhi : hi ≤ l.length)
    (hit : l.getD i (0, 0, 0) = t) : binarySearchGo l t lo hi = true := by
  have hilen : i < l.length := Nat.lt_of_lt_of_le hihi hhi
  have hlt : lo < hi := Nat.lt_of_le_of_lt hlo hihi
  rw [binarySearchGo_eq, if_pos hlt]
  have hmidlt : lo + (hi - lo) / 2 < hi := by omega
  have hmlen : lo + (hi - lo) / 2 < l.length := Nat.lt_of_lt_of_le hmidlt hhi
  rcases hc : tripleCmp (l.getD (lo + (hi - lo) / 2) (0, 0, 0)) t with _ | _ | _
  · -- probe below `t`: `t` can only live right of the probe
    have himid : lo + (hi - lo) / 2 < i := by
      rcases Nat.lt_trichotomy i (lo + (hi - lo) / 2) with hlt' | heq' | hgt'
      · exfalso
        have hle := List.pairwise_iff_getElem.mp hsorted i (lo + (hi - lo) / 2) hilen hmlen hlt'
        rw [← List.getD_eq_getElem l (0, 0, 0) hilen, ← List.getD_eq_getElem l (0, 0, 0) hmlen,
          hit] at hle
        exact hle ((tripleCmp_flip _ _).mp hc)
      · exfalso
        rw [← heq', hit, (tripleCmp_eq_eq_iff t t).mpr rfl] at hc
        cases hc
      · exact hgt'
    exact binarySearchGo_complete l t hsorted (lo + (hi - lo) / 2 + 1) hi i himid hihi hhi hit
  · rfl
  · -- probe above `t`: `t` can only live left of the probe
    have himid : i < lo + (hi - lo) / 2 := by
      rcases Nat.lt_trichotomy i (lo + (hi - lo) / 2) with hlt' | heq' | hgt'
      · exact hlt'
      · exfalso
        rw [← heq', hit, (tripleCmp_eq_eq_iff t t).mpr rfl] at hc
        cases hc
      · exfalso
        have hle := List.pairwise_iff_getElem.mp hsorted (lo + (hi - lo) / 2) i hmlen hilen hgt'
        rw [← List.getD_eq_getElem l (0, 0, 0) hilen, ← List.getD_eq_getElem l (0, 0, 0) hmlen,
          hit] at hle
        exact hle hc
    exact binarySearchGo_complete l t hsorted lo (lo + (hi - lo) / 2) i hlo himid
      (Nat.le_trans (Nat.le_of_lt hmidlt) hhi) hit
termination_by hi - lo
decreasing_by all_goals omega

/-- C7: for a compressed triple file whose record array is sorted in
position-major lexicographic order over `(s, p, o)`, `contains t` returns
`true` exactly when `t` occurs in the array. -/
theorem containsTriple_iff_mem (l : List CTriple) (t : CTriple)
    (hsorted : l.Pairwise fun a b => tripleCmp a b ≠ .gt) :
    containsTriple l t = true ↔ t ∈ l := by
  constructor
  · exact fun h => binarySearchGo_sound l t 0 l.length (Nat.le_refl _) h
  · intro hmem
    obtain ⟨i, hilen, hi⟩ := List.mem_iff_getElem.mp hmem
    exact binarySearchGo_complete l t hsorted 0 l.length i (Nat.zero_le _) hilen
      (Nat.le_refl _) (by rw [List.getD_eq_getElem _ _ hilen, hi])

/-- Witness for C7 on a concrete sorted three-record file. -/
theorem containsTriple_iff_mem_witness :
    (([(1, 1, 1), (1, 2, 3), (2, 0, 0)] : List CTriple).Pairwise
        fun a b => tripleCmp a b ≠ .gt) ∧
      (containsTriple [(1, 1, 1), (1, 2, 3), (2, 0, 0)] (1, 2, 3) = true ↔
        ((1, 2, 3) : CTriple) ∈ [(1, 1, 1), (1, 2, 3), (2, 0, 0)]) :=
  ⟨by decide, containsTriple_iff_mem _ _ (by decide)⟩

/-- C10: the sequence traversed by `fixed_size_changeset_triple_generator`
is fixed at construction time; the batch for size hint `s` is the first `s`
elements of that fixed sequence, so the batch for `s` is a prefix of the
batch for any `s' ≥ s` — successive calls overlap instead of being
disjoint. -/
theorem fixed_size_changeset_batches_are_prefixes (changesets : List (List CTriple))
    (dataset : List CTriple) (start_off s s' : Nat)
    (_hstart : start_off < changesets.length) (hs : s ≤ s') :
    fixed_size_changeset_triple_generator changesets dataset start_off s
        = (fixedSizeChangesetSeq changesets dataset start_off).take s ∧
      fixed_size_changeset_triple_generator changesets dataset start_off s
        <+: fixed_size_changeset_triple_generator changesets dataset start_off s' := by
  have hdef : ∀ n, fixed_size_changeset_triple_generator changesets dataset start_off n
      = (fixedSizeChangesetSeq changesets dataset start_off).take n := fun _ => rfl
  refine ⟨hdef s, ?_⟩
  set seq := fixedSizeChangesetSeq changesets dataset start_off with hseq
  have htake : (seq.take s').take s = seq.take s := by
    rw [List.take_take, Nat.min_eq_left hs]
  rw [hdef s, hdef s', ← htake]
  exact ⟨(seq.take s').drop s, List.take_append_drop s (seq.take s')⟩

/-- Witness for C10 with two singleton changesets and a sorted dataset. -/
theorem fixed_size_changeset_batches_are_prefixes_witness :
    1 < ([[(1, 1, 1)], [(2, 2, 2)]] : List (List CTriple)).length ∧ 1 ≤ 2 ∧
      (fixed_size_changeset_triple_generator [[(1, 1, 1)], [(2, 2, 2)]]
          [(1, 1, 1), (2, 2, 2)] 1 1
        = (fixedSizeChangesetSeq [[(1, 1, 1)], [(2, 2, 2)]] [(1, 1, 1), (2, 2, 2)] 1).take 1 ∧
      fixed_size_changeset_triple_generator [[(1, 1, 1)], [(2, 2, 2)]]
          [(1, 1, 1), (2, 2, 2)] 1 1
        <+: fixed_size_changeset_triple_generator [[(1, 1, 1)], [(2, 2, 2)]]
          [(1, 1, 1), (2, 2, 2)] 1 2) :=
  ⟨by decide, by decide,
    fixed_size_changeset_batches_are_prefixes _ _ 1 1 2 (by decide) (by decide)⟩

theorem flatten_randomDistinctRun (triples : List CTriple) (ixs : List Nat)
    (hints : List Nat) :
    (randomDistinctRun triples ixs hints).flatten
      = (ixs.take hints.sum).map fun ix => triples.getD ix (0, 0, 0) := by
  induction hints generalizing ixs with
  | nil => simp [randomDistinctRun]
  | cons hint hints ih =>
    simp only [randomDistinctRun, randomDistinctCall, List.flatten_cons, ih, List.sum_cons,
      List.take_add, List.map_append]

/-- C5 cannot hold verbatim: on a compressed file holding the same triple
twice, the only possible sample of two distinct indices is {0, 1}, and the
workload of two size-1 queries emits that triple twice. -/
theorem random_distinct_repeats_on_duplicate_triples :
    ([0, 1] : List Nat).Nodup ∧
      (∀ i ∈ ([0, 1] : List Nat), i < ([(5, 5, 5), (5, 5, 5)] : List CTriple).length) ∧
      ¬ ((randomDistinctRun [(5, 5, 5), (5, 5, 5)]
          (random_distinct_triple_generator [0, 1]) [1, 1]).flatten).Nodup := by
  refine ⟨by decide, by decide, ?_⟩
  have hsort : random_distinct_triple_generator [0, 1] = [0, 1] := by
    have := List.mergeSort_eq_self
      (l := ([0, 1] : List Nat)) (by constructor <;> simp)
    simpa [random_distinct_triple_generator] using this
  rw [hsort]
  decide

/-- C5 amended: across one whole workload the generator never consumes the
same sampled position twice, so as long as the compressed file's records
are pairwise distinct (and the sample is a valid distinct sample of
in-range positions), no triple is emitted twice. -/
theorem random_distinct_no_repeats (triples : List CTriple) (sample : List Nat)
    (hints : List Nat) (htriples : triples.Nodup) (hsample : sample.Nodup)
    (hbound : ∀ i ∈ sample, i < triples.length) :
    ((randomDistinctRun triples (random_distinct_triple_generator sample) hints).flatten).Nodup := by
  rw [flatten_randomDistinctRun]
  have hperm : (random_distinct_triple_generator sample).Perm sample :=
    sample.mergeSort_perm _
  have hnodup_sorted : (random_distinct_triple_generator sample).Nodup :=
    hperm.nodup_iff.mpr hsample
  have hnodup_take : ((random_distinct_triple_generator sample).take hints.sum).Nodup :=
    hnodup_sorted.sublist (List.take_sublist _ _)
  refine List.Nodup.map_on ?_ hnodup_take
  intro x hx y hy hxy
  have hxmem : x ∈ sample := hperm.mem_iff.mp (List.mem_of_mem_take hx)
  have hymem : y ∈ sample := hperm.mem_iff.mp (List.mem_of_mem_take hy)
  have hxb : x < triples.length := hbound x hxmem
  have hyb : y < triples.length := hbound y hymem
  rw [List.getD_eq_getElem _ _ hxb, List.getD_eq_getElem _ _ hyb] at hxy
  exact (htriples.getElem_inj_iff).mp hxy

/-- Witness for the amended C5 on a duplicate-free two-record file. -/
theorem random_distinct_no_repeats_witness :
    ([(5, 5, 5), (6, 6, 6)] : List CTriple).Nodup ∧ ([1, 0] : List Nat).Nodup ∧
      (∀ i ∈ ([1, 0] : List Nat), i < ([(5, 5, 5), (6, 6, 6)] : List CTriple).length) ∧
      ((randomDistinctRun [(5, 5, 5), (6, 6, 6)]
          (random_distinct_triple_generator [1, 0]) [1, 1]).flatten).Nodup :=
  ⟨by decide, by decide, by decide,
    random_distinct_no_repeats _ _ [1, 1] (by decide) (by decide) (by decide)⟩

/-- C1 fails on the code: in replicate mode `generate_linear_no_size_hint`
passes no prepare writer to `write_update_data_queries`, whose `write_query`
closure emits `INSERT DATA` only when a prepare writer is present — so an
input classified `InsertData` (filename `x.added.compressed_nt`) is written
out as a `DELETE DATA` query. -/
theorem replicate_insert_written_as_delete :
    classifyReplicate OutputFormat.Query (bs "x.added.compressed_nt")
        = some QueryType.InsertData ∧
      replicate [(1, bs "<s>"), (2, bs "<p>"), (3, bs "<o>")] none OutputFormat.Query
          [(bs "x.added.compressed_nt", [(1, 2, 3)])]
        = some (bs "DELETE DATA \x7b <s> <p> <o> . \x7d\n") := by
  constructor
  · decide
  · decide

/-! ## C2: per-record error recovery -/
/-- C2 as stated fails for the raw (`parse = false`) mode: a record with
fewer than two spaces panics the reader task through `unwrap`, aborting the
whole compression of the file instead of being skipped. -/
theorem compress_raw_aborts_on_malformed_record :
    compress_raw_rdf_triple_file (fun _ => 0) (fun _ => 0) false ⟨[], []⟩ [bs "ab"]
      = .error "called Option::unwrap() on a None value" := rfl

/-- C2 amended: in parsed mode the recovery policy holds —
`compress_parsed_rdf_triple_file` never aborts, every failing record's
error is reported in order, and the final state and emitted triples equal
those of a run without the failing records (processing resumes at the next
record). -/
theorem compress_parsed_recovers_per_record (th : Bytes → Nat) (tph : CTriple → Nat)
    (dedup : Bool) (c : RdfTripleCompressor) (records : List (Except String RioTriple)) :
    ∃ st out,
      compress_parsed_rdf_triple_file th tph dedup c records
          = .ok (st, out,
              records.filterMap fun r => match r with | .error e => some e | .ok _ => none) ∧
        compress_parsed_rdf_triple_file th tph dedup c
            ((records.filterMap Except.toOption).map Except.ok) = .ok (st, out, []) := by
  induction records generalizing c with
  | nil => exact ⟨c, [], rfl, rfl⟩
  | cons r records ih =>
    cases r with
    | error e =>
      obtain ⟨st, out, h1, h2⟩ := ih c
      refine ⟨st, out, ?_, ?_⟩
      · simp [compress_parsed_rdf_triple_file, h1]
      · simpa [Except.toOption] using h2
    | ok t =>
      cases hat : acceptParsedTriple t with
      | none =>
        obtain ⟨st, out, h1, h2⟩ := ih c
        refine ⟨st, out, ?_, ?_⟩
        · simp [compress_parsed_rdf_triple_file, hat, h1]
        · simp [compress_parsed_rdf_triple_file, Except.toOption, hat, h2]
      | some raw =>
        set ct := compress_raw_rdf_triple th c raw with hct
        set keep := (if dedup then found_new_triple tph ct.1 ct.2 else (ct.1, true)) with hkeep
        obtain ⟨st, out, h1, h2⟩ := ih keep.1
        refine ⟨st, if keep.2 then ct.2 :: out else out, ?_, ?_⟩
        · simp [compress_parsed_rdf_triple_file, hat, ← hct, ← hkeep, h1]
        · simp [compress_parsed_rdf_triple_file, Except.toOption, hat, ← hct, ← hkeep, h2]

/-! ## C8: `save_state` header invariants -/
theorem saveHeader_map_fst (off : Nat) (m : Translations) :
    (saveHeader off m).map (fun r => r.1) = m.map Prod.fst := by
  induction m generalizing off with
  | nil => rfl
  | cons p rest ih => obtain ⟨k, v⟩ := p; simp [saveHeader, ih]

theorem saveHeader_chain (off : Nat) (m : Translations) :
    (saveHeader off m).Chain' fun a b => a.2.2 = b.2.1 := by
  induction m generalizing off with
  | nil => simp [saveHeader]
  | cons p rest ih =>
    obtain ⟨k, v⟩ := p
    cases rest with
    | nil => simp [saveHeader]
    | cons q rest' =>
      obtain ⟨k2, v2⟩ := q
      rw [saveHeader, saveHeader, List.chain'_cons]
      exact ⟨rfl, by have := ih (off + v.length); rwa [saveHeader] at this⟩

theorem byteSlice_append (pre v rest : Bytes) :
    byteSlice (pre ++ v ++ rest) pre.length (pre.length + v.length) = v := by
  rw [byteSlice, List.append_assoc, List.take_append, List.drop_left]
  exact List.take_left v rest

theorem saveHeader_forall2 (m : Translations) (pre : Bytes) :
    List.Forall₂ (fun (r : Nat × Nat × Nat) (p : Nat × Bytes) =>
        r.1 = p.1 ∧ r.2.2 = r.2.1 + p.2.length ∧
          byteSlice (pre ++ (m.map Prod.snd).flatten) r.2.1 r.2.2 = p.2)
      (saveHeader pre.length m) m := by
  induction m generalizing pre with
  | nil => simp [saveHeader]
  | cons p rest ih =>
    obtain ⟨k, v⟩ := p
    rw [saveHeader]
    refine List.Forall₂.cons ⟨rfl, rfl, ?_⟩ ?_
    · simpa using byteSlice_append pre v ((rest.map Prod.snd).flatten)
    · have := ih (pre ++ v)
      simp only [List.length_append] at this
      simpa [List.append_assoc] using this

/-- C8: for every mutable dictionary (keys strictly ascending, the
`BTreeMap` invariant), the file written by `save_state` has header records
strictly ascending by `TermId`, each record's end offset equal to the next
record's start offset with the first start offset 0, and
`data_segment[start..end]` equal to the stored bytes of that term. -/
theorem save_state_header_invariants (m : Translations)
    (hsorted : m.Pairwise fun a b => a.1 < b.1) :
    ((save_state m).1.Pairwise fun a b => a.1 < b.1) ∧
      (∀ r ∈ (save_state m).1.head?, r.2.1 = 0) ∧
      ((save_state m).1.Chain' fun a b => a.2.2 = b.2.1) ∧
      List.Forall₂ (fun (r : Nat × Nat × Nat) (p : Nat × Bytes) =>
          r.1 = p.1 ∧ r.2.2 = r.2.1 + p.2.length ∧
            byteSlice (save_state m).2 r.2.1 r.2.2 = p.2)
        (save_state m).1 m := by
  refine ⟨?_, ?_, ?_, ?_⟩
  · have hm : ((save_state m).1.map (fun r => r.1)).Pairwise (fun a b => a < b) := by
      rw [save_state, saveHeader_map_fst, List.pairwise_map]
      exact hsorted
    have := List.pairwise_map.mp hm
    exact this
  · intro r hr
    cases m with
    | nil => simp [save_state, saveHeader] at hr
    | cons p rest =>
      obtain ⟨k, v⟩ := p
      simp only [save_state, saveHeader, List.head?_cons, Option.mem_def,
        Option.some.injEq] at hr
      rw [← hr]
  · exact saveHeader_chain 0 m
  · have := saveHeader_forall2 m []
    simpa [save_state] using this

/-- Witness for C8 on a concrete two-entry dictionary. -/
theorem save_state_header_invariants_witness :
    (([(1, bs "ab"), (5, bs "c")] : Translations).Pairwise fun a b => a.1 < b.1) ∧
      ((save_state [(1, bs "ab"), (5, bs "c")]).1.Pairwise fun a b => a.1 < b.1) ∧
      (∀ r ∈ (save_state [(1, bs "ab"), (5, bs "c")]).1.head?, r.2.1 = 0) ∧
      ((save_state [(1, bs "ab"), (5, bs "c")]).1.Chain' fun a b => a.2.2 = b.2.1) ∧
      List.Forall₂ (fun (r : Nat × Nat × Nat) (p : Nat × Bytes) =>
          r.1 = p.1 ∧ r.2.2 = r.2.1 + p.2.length ∧
            byteSlice (save_state [(1, bs "ab"), (5, bs "c")]).2 r.2.1 r.2.2 = p.2)
        (save_state [(1, bs "ab"), (5, bs "c")]).1 [(1, bs "ab"), (5, bs "c")] :=
  ⟨by decide, save_state_header_invariants _ (by decide)⟩

/-! ## Dictionary lemmas (`BTreeMap::entry(...).or_insert(...)`) -/
theorem btInsert_mem {p : Nat × Bytes} {k : Nat} {v : Bytes} {m : Translations}
    (h : p ∈ btInsert k v m) : p ∈ m ∨ p = (k, v) := by
  induction m with
  | nil => simpa [btInsert] using h
  | cons q rest ih =>
    obtain ⟨k', v'⟩ := q
    rw [btInsert] at h
    split_ifs at h with h1 h2
    · rcases List.mem_cons.mp h with h | h
      · exact Or.inr h
      · exact Or.inl h
    · exact Or.inl h
    · rcases List.mem_cons.mp h with h | h
      · exact Or.inl (h ▸ List.mem_cons_self _ _)
      · rcases ih h with h | h
        · exact Or.inl (List.mem_cons_of_mem _ h)
        · exact Or.inr h

theorem btInsert_sorted {m : Translations} (k : Nat) (v : Bytes)
    (h : m.Pairwise fun a b => a.1 < b.1) :
    (btInsert k v m).Pairwise fun a b => a.1 < b.1 := by
  induction m with
  | nil => simp [btInsert]
  | cons q rest ih =>
    obtain ⟨k', v'⟩ := q
    rw [List.pairwise_cons] at h
    obtain ⟨hhead, htail⟩ := h
    rw [btInsert]
    split_ifs with h1 h2
    · refine List.Pairwise.cons ?_ (List.Pairwise.cons hhead htail)
      intro p hp
      rcases List.mem_cons.mp hp with rfl | hp
      · exact h1
      · exact Nat.lt_trans h1 (hhead p hp)
    · exact List.Pairwise.cons hhead htail
    · have hk : k' < k := by omega
      refine List.Pairwise.cons ?_ (ih htail)
      intro p hp
      rcases btInsert_mem hp with hp | rfl
      · exact hhead p hp
      · exact hk

theorem btLookup_none {k : Nat} {m : Translations} (h : ∀ p ∈ m, k < p.1) :
    btLookup k m = none := by
  induction m with
  | nil => rfl
  | cons q rest ih =>
    obtain ⟨k', v'⟩ := q
    have hk : k < k' := h (k', v') (List.mem_cons_self _ _)
    rw [btLookup, if_neg (by omega)]
    exact ih fun p hp => h p (List.mem_cons_of_mem _ hp)

theorem btLookup_mem {k : Nat} {v : Bytes} {m : Translations}
    (h : btLookup k m = some v) : (k, v) ∈ m := by
  induction m with
  | nil => simp [btLookup] at h
  | cons q rest ih =>
    obtain ⟨k', v'⟩ := q
    rw [btLookup] at h
    split_ifs at h with h1
    · subst h1
      obtain rfl : v' = v := by simpa using h
      exact List.mem_cons_self _ _
    · exact List.mem_cons_of_mem _ (ih h)

theorem btLookup_btInsert (k : Nat) (v : Bytes) {m : Translations}
    (hs : m.Pairwise fun a b => a.1 < b.1) (j : Nat) :
    btLookup j (btInsert k v m)
      = if j = k then some ((btLookup k m).getD v) else btLookup j m := by
  induction m with
  | nil =>
    by_cases hj : j = k <;> simp [btInsert, btLookup, hj]
  | cons q rest ih =>
    obtain ⟨k', v'⟩ := q
    rw [List.pairwise_cons] at hs
    obtain ⟨hhead, htail⟩ := hs
    rcases Nat.lt_trichotomy k k' with hlt | heq | hgt
    · -- the fresh key is below the head: inserted in front, `k` was absent
      rw [btInsert, if_pos hlt]
      have hnone : btLookup k ((k', v') :: rest) = none := by
        refine btLookup_none fun p hp => ?_
        rcases List.mem_cons.mp hp with rfl | hp
        · exact hlt
        · exact Nat.lt_trans hlt (hhead p hp)
      by_cases hj : j = k
      · subst hj
        rw [btLookup] at hnone
        simp [btLookup, hnone]
      · simp [btLookup, hj]
    · -- the key is already present at the head: map unchanged, value kept
      subst heq
      rw [btInsert, if_neg (Nat.lt_irrefl k), if_pos rfl]
      by_cases hj : j = k
      · subst hj
        simp [btLookup]
      · simp [hj]
    · -- the key belongs further right: insertion recurses past the head
      have hne : ¬k < k' := by omega
      have hkk : ¬k = k' := by omega
      rw [btInsert, if_neg hne, if_neg hkk]
      by_cases hj' : j = k'
      · subst hj'
        have hjk : ¬j = k := by omega
        simp [btLookup, hjk]
      · simp [btLookup, hj', ih htail, hkk]

theorem btLookup_btInsert_preserves {j k : Nat} {v u : Bytes} {m : Translations}
    (hs : m.Pairwise fun a b => a.1 < b.1)
    (h : btLookup j m = some u) : btLookup j (btInsert k v m) = some u := by
  rw [btLookup_btInsert k v hs j]
  by_cases hj : j = k
  · rw [if_pos hj, ← hj, h]; rfl
  · rw [if_neg hj, h]

theorem btLookup_btInsert_self {k : Nat} {v : Bytes} {m : Translations}
    (hs : m.Pairwise fun a b => a.1 < b.1) :
    btLookup k (btInsert k v m) = some ((btLookup k m).getD v) := by
  rw [btLookup_btInsert k v hs k, if_pos rfl]

theorem btLookup_btInsert_isSome {k : Nat} {v : Bytes} {m : Translations}
    (hs : m.Pairwise fun a b => a.1 < b.1) :
    btLookup k (btInsert k v m) ≠ none := by
  rw [btLookup_btInsert_self hs]
  exact Option.some_ne_none _

/-! ## C3: raw-mode compression round-trip -/
theorem acceptedTriples_cons_skip {line : Bytes} {lines : List Bytes}
    (h : processRawLine line = .ok none) :
    acceptedTriples (line :: lines) = acceptedTriples lines := by
  simp [acceptedTriples, List.filterMap_cons, h]

theorem acceptedTriples_cons_acc {line : Bytes} {lines : List Bytes} {t : RawTriple}
    (h : processRawLine line = .ok (some t)) :
    acceptedTriples (line :: lines) = t :: acceptedTriples lines := by
  simp [acceptedTriples, List.filterMap_cons, h]

theorem rawTerms_cons_skip {line : Bytes} {lines : List Bytes}
    (h : processRawLine line = .ok none) :
    rawTerms (line :: lines) = rawTerms lines := by
  rw [rawTerms, acceptedTriples_cons_skip h, rawTerms]

theorem rawTerms_cons_acc {line : Bytes} {lines : List Bytes} {t : RawTriple}
    (h : processRawLine line = .ok (some t)) :
    rawTerms (line :: lines) = t.1 :: t.2.1 :: t.2.2 :: rawTerms lines := by
  rw [rawTerms, acceptedTriples_cons_acc h, List.flatMap_cons, rawTerms]
  rfl

theorem compress_raw_fold (th : Bytes → Nat) (tph : CTriple → Nat) (lines : List Bytes)
    (c : RdfTripleCompressor)
    (hok : ∀ line ∈ lines, (processRawLine line).isOk = true)
    (hsorted : c.translations.Pairwise fun a b => a.1 < b.1) :
    ∃ st, compress_raw_rdf_triple_file th tph false c lines
        = .ok (st, (acceptedTriples lines).map (hashTriple th)) ∧
      (st.translations.Pairwise fun a b => a.1 < b.1) ∧
      (∀ p ∈ st.translations, p ∈ c.translations ∨ (p.1 = th p.2 ∧ p.2 ∈ rawTerms lines)) ∧
      (∀ j u, btLookup j c.translations = some u → btLookup j st.translations = some u) ∧
      (∀ t ∈ rawTerms lines, btLookup (th t) st.translations ≠ none) := by
  induction lines generalizing c with
  | nil =>
    refine ⟨c, ?_, hsorted, fun p hp => Or.inl hp, fun j u h => h, ?_⟩
    · simp [compress_raw_rdf_triple_file, acceptedTriples]
    · simp [rawTerms, acceptedTriples]
  | cons line lines ih =>
    have hok_line := hok line (List.mem_cons_self _ _)
    have hok_rest : ∀ l ∈ lines, (processRawLine l).isOk = true :=
      fun l hl => hok l (List.mem_cons_of_mem _ hl)
    cases hpl : processRawLine line with
    | error e => rw [hpl] at hok_line; simp [Except.isOk, Except.toBool] at hok_line
    | ok ot =>
      cases ot with
      | none =>
        obtain ⟨st, hrun, hs, hmem, hpres, hcov⟩ := ih c hok_rest hsorted
        refine ⟨st, ?_, hs, ?_, hpres, ?_⟩
        · rw [compress_raw_rdf_triple_file, hpl, hrun, acceptedTriples_cons_skip hpl]
        · intro p hp
          rcases hmem p hp with h | h
          · exact Or.inl h
          · exact Or.inr ⟨h.1, by rw [rawTerms_cons_skip hpl]; exact h.2⟩
        · intro u hu
          rw [rawTerms_cons_skip hpl] at hu
          exact hcov u hu
      | some t =>
        have hm1s := btInsert_sorted (th t.1) t.1 hsorted
        have hm2s := btInsert_sorted (th t.2.1) t.2.1 hm1s
        have hm3s := btInsert_sorted (th t.2.2) t.2.2 hm2s
        have hc1tr : (compress_raw_rdf_triple th c t).1.translations
            = btInsert (th t.2.2) t.2.2 (btInsert (th t.2.1) t.2.1
                (btInsert (th t.1) t.1 c.translations)) := rfl
        obtain ⟨st, hrun, hs, hmem, hpres, hcov⟩ :=
          ih (compress_raw_rdf_triple th c t).1 hok_rest (hc1tr ▸ hm3s)
        have hpres1 : ∀ j u, btLookup j c.translations = some u →
            btLookup j (compress_raw_rdf_triple th c t).1.translations = some u := by
          intro j u hj
          rw [hc1tr]
          exact btLookup_btInsert_preserves hm2s
            (btLookup_btInsert_preserves hm1s (btLookup_btInsert_preserves hsorted hj))
        refine ⟨st, ?_, hs, ?_, ?_, ?_⟩
        · rw [compress_raw_rdf_triple_file, hpl]
          simp only [Bool.false_eq_true, if_false, hrun, acceptedTriples_cons_acc hpl,
            List.map_cons]
          rfl
        · intro p hp
          rcases hmem p hp with h | h
          · rw [hc1tr] at h
            rcases btInsert_mem h with h | rfl
            · rcases btInsert_mem h with h | rfl
              · rcases btInsert_mem h with h | rfl
                · exact Or.inl h
                · exact Or.inr ⟨rfl, by rw [rawTerms_cons_acc hpl]; exact List.mem_cons_self _ _⟩
              · refine Or.inr ⟨rfl, ?_⟩
                rw [rawTerms_cons_acc hpl]
                exact List.mem_cons_of_mem _ (List.mem_cons_self _ _)
            · refine Or.inr ⟨rfl, ?_⟩
              rw [rawTerms_cons_acc hpl]
              exact List.mem_cons_of_mem _ (List.mem_cons_of_mem _ (List.mem_cons_self _ _))
          · exact Or.inr ⟨h.1, by rw [rawTerms_cons_acc hpl]; exact
              List.mem_cons_of_mem _ (List.mem_cons_of_mem _ (List.mem_cons_of_mem _ h.2))⟩
        · exact fun j u hj => hpres j u (hpres1 j u hj)
        · intro u hu
          rw [rawTerms_cons_acc hpl] at hu
          have hsub : ∀ w : Bytes, btLookup (th w) (compress_raw_rdf_triple th c t).1.translations
              ≠ none → btLookup (th w) st.translations ≠ none := by
            intro w hw
            obtain ⟨x, hx⟩ := Option.ne_none_iff_exists'.mp hw
            rw [hpres (th w) x hx]
            exact Option.some_ne_none _
          rcases List.mem_cons.mp hu with h1 | hu1
          · rw [h1]
            refine hsub t.1 ?_
            rw [hc1tr]
            have h2 : btLookup (th t.1) (btInsert (th t.1) t.1 c.translations) ≠ none :=
              btLookup_btInsert_isSome hsorted
            obtain ⟨x, hx⟩ := Option.ne_none_iff_exists'.mp h2
            rw [btLookup_btInsert_preserves hm2s (btLookup_btInsert_preserves hm1s hx)]
            exact Option.some_ne_none _
          · rcases List.mem_cons.mp hu1 with h1 | hu2
            · rw [h1]
              refine hsub t.2.1 ?_
              rw [hc1tr]
              have h2 : btLookup (th t.2.1) (btInsert (th t.2.1) t.2.1
                  (btInsert (th t.1) t.1 c.translations)) ≠ none :=
                btLookup_btInsert_isSome hm1s
              obtain ⟨x, hx⟩ := Option.ne_none_iff_exists'.mp h2
              rw [btLookup_btInsert_preserves hm2s hx]
              exact Option.some_ne_none _
            · rcases List.mem_cons.mp hu2 with h1 | hu3
              · rw [h1]
                refine hsub t.2.2 ?_
                rw [hc1tr]
                exact btLookup_btInsert_isSome hm2s
              · exact hcov u hu3

theorem mapM_some_of_forall {A B C : Type} (f : B → Option C) (h : A → B) (g : A → C)
    (l : List A) (hx : ∀ x ∈ l, f (h x) = some (g x)) :
    (l.map h).mapM f = some (l.map g) := by
  induction l with
  | nil => rfl
  | cons x xs ih =>
    rw [List.map_cons, List.mapM_cons, hx x (List.mem_cons_self _ _),
      ih fun y hy => hx y (List.mem_cons_of_mem _ hy)]
    rfl

theorem normalizeAcceptedLine_skip {line : Bytes} (h : processRawLine line = .ok none) :
    normalizeAcceptedLine line = none := by
  simp [normalizeAcceptedLine, h]

theorem normalizeAcceptedLine_err {line : Bytes} {e : String}
    (h : processRawLine line = .error e) : normalizeAcceptedLine line = none := by
  simp [normalizeAcceptedLine, h]

theorem normalizeAcceptedLine_acc {line : Bytes} {t : RawTriple}
    (h : processRawLine line = .ok (some t)) :
    normalizeAcceptedLine line
      = some (t.1 ++ bs " " ++ t.2.1 ++ bs " " ++ t.2.2 ++ bs " .") := by
  simp [normalizeAcceptedLine, h]

theorem acceptedTriples_cons_err {line : Bytes} {lines : List Bytes} {e : String}
    (h : processRawLine line = .error e) :
    acceptedTriples (line :: lines) = acceptedTriples lines := by
  simp [acceptedTriples, List.filterMap_cons, h]

theorem filterMap_normalize (lines : List Bytes) :
    lines.filterMap normalizeAcceptedLine
      = (acceptedTriples lines).map fun t =>
          t.1 ++ bs " " ++ t.2.1 ++ bs " " ++ t.2.2 ++ bs " ." := by
  induction lines with
  | nil => rfl
  | cons line lines ih =>
    cases hpl : processRawLine line with
    | error e =>
      simp only [List.filterMap_cons, normalizeAcceptedLine_err hpl,
        acceptedTriples_cons_err hpl, ih]
    | ok ot =>
      cases ot with
      | none =>
        simp only [List.filterMap_cons, normalizeAcceptedLine_skip hpl,
          acceptedTriples_cons_skip hpl, ih]
      | some t =>
        simp only [List.filterMap_cons, normalizeAcceptedLine_acc hpl,
          acceptedTriples_cons_acc hpl, List.map_cons, ih]

theorem mem_rawTerms_of_accepted {lines : List Bytes} {t : RawTriple}
    (h : t ∈ acceptedTriples lines) :
    t.1 ∈ rawTerms lines ∧ t.2.1 ∈ rawTerms lines ∧ t.2.2 ∈ rawTerms lines := by
  refine ⟨?_, ?_, ?_⟩ <;>
    exact List.mem_flatMap.mpr ⟨t, h, by simp⟩

/-- C3: for input accepted by the raw-mode compressor with `dedup = false`
and `parse = false` (and a term hash with no collision on the input's
terms), decompressing the produced record stream against the resulting
dictionary state yields exactly the input lines minus empty, comment and
blank-node lines, with the three fields and the trailing dot separated by
single spaces. -/
theorem compress_raw_roundtrip (th : Bytes → Nat) (tph : CTriple → Nat) (lines : List Bytes)
    (hok : ∀ line ∈ lines, (processRawLine line).isOk = true)
    (hinj : ∀ a ∈ rawTerms lines, ∀ b ∈ rawTerms lines, th a = th b → a = b) :
    ∃ st out, compress_raw_rdf_triple_file th tph false ⟨[], []⟩ lines = .ok (st, out) ∧
      decompress_rdf_triple_file st.translations out
        = some (lines.filterMap normalizeAcceptedLine) := by
  obtain ⟨st, hrun, _hs, hmem, _hpres, hcov⟩ :=
    compress_raw_fold th tph lines ⟨[], []⟩ hok (by simp)
  refine ⟨st, _, hrun, ?_⟩
  have hres : ∀ u ∈ rawTerms lines, btLookup (th u) st.translations = some u := by
    intro u hu
    obtain ⟨x, hx⟩ := Option.ne_none_iff_exists'.mp (hcov u hu)
    have hm := btLookup_mem hx
    rcases hmem _ hm with h | h
    · simp at h
    · obtain ⟨hk, hv⟩ := h
      have : x = u := hinj x hv u hu hk.symm
      rw [hx, this]
  have hdec : ∀ t ∈ acceptedTriples lines,
      decompress_rdf_triple st.translations (hashTriple th t) = some t := by
    intro t ht
    obtain ⟨h1, h2, h3⟩ := mem_rawTerms_of_accepted ht
    rw [decompress_rdf_triple]
    rw [show (hashTriple th t).1 = th t.1 from rfl,
      show (hashTriple th t).2.1 = th t.2.1 from rfl,
      show (hashTriple th t).2.2 = th t.2.2 from rfl,
      hres t.1 h1, hres t.2.1 h2, hres t.2.2 h3]
    rfl
  rw [decompress_rdf_triple_file, filterMap_normalize]
  refine mapM_some_of_forall _ _ _ _ ?_
  intro t ht
  rw [hdec t ht]
  rfl

/-- Witness for C3: one well-formed line, a comment, an empty line and a
blank-node line, with a collision-free hash on the input's three terms. -/
theorem compress_raw_roundtrip_witness :
    (∀ line ∈ [bs "<s> <pp> <ooo> .", bs "# c", bs "", bs "_:b <pp> <q> ."],
        (processRawLine line).isOk = true) ∧
      (∀ a ∈ rawTerms [bs "<s> <pp> <ooo> .", bs "# c", bs "", bs "_:b <pp> <q> ."],
        ∀ b ∈ rawTerms [bs "<s> <pp> <ooo> .", bs "# c", bs "", bs "_:b <pp> <q> ."],
          a.length = b.length → a = b) ∧
      ∃ st out,
        compress_raw_rdf_triple_file (fun b => b.length) (fun _ => 0) false ⟨[], []⟩
            [bs "<s> <pp> <ooo> .", bs "# c", bs "", bs "_:b <pp> <q> ."] = .ok (st, out) ∧
          decompress_rdf_triple_file st.translations out
            = some ([bs "<s> <pp> <ooo> .", bs "# c", bs "",
                bs "_:b <pp> <q> ."].filterMap normalizeAcceptedLine) :=
  ⟨by decide, by decide,
    compress_raw_roundtrip (fun b => b.length) (fun _ => 0) _ (by decide) (by decide)⟩

theorem emitFilter_append (tph : CTriple → Nat) (seen : List Nat) (a b : List CTriple) :
    emitFilter tph seen (a ++ b)
      = emitFilter tph seen a ++ emitFilter tph (emitSeen tph seen a) b := by
  induction a generalizing seen with
  | nil => rfl
  | cons t ts ih =>
    by_cases h : tph t ∈ seen <;> simp [emitFilter, emitSeen, h, ih]

theorem emitSeen_append (tph : CTriple → Nat) (seen : List Nat) (a b : List CTriple) :
    emitSeen tph seen (a ++ b) = emitSeen tph (emitSeen tph seen a) b := by
  induction a generalizing seen with
  | nil => rfl
  | cons t ts ih =>
    by_cases h : tph t ∈ seen <;> simp [emitSeen, h, ih]

theorem acceptedTriples_append (l1 l2 : List Bytes) :
    acceptedTriples (l1 ++ l2) = acceptedTriples l1 ++ acceptedTriples l2 := by
  simp [acceptedTriples, List.filterMap_append]

theorem compress_raw_fold_dedup (th : Bytes → Nat) (tph : CTriple → Nat) (lines : List Bytes)
    (c : RdfTripleCompressor)
    (hok : ∀ line ∈ lines, (processRawLine line).isOk = true) :
    ∃ st, compress_raw_rdf_triple_file th tph true c lines
        = .ok (st, emitFilter tph c.dedup ((acceptedTriples lines).map (hashTriple th))) ∧
      st.dedup = emitSeen tph c.dedup ((acceptedTriples lines).map (hashTriple th)) := by
  induction lines generalizing c with
  | nil =>
    exact ⟨c, by simp [compress_raw_rdf_triple_file, acceptedTriples, emitFilter],
      by simp [acceptedTriples, emitSeen]⟩
  | cons line lines ih =>
    have hok_line := hok line (List.mem_cons_self _ _)
    have hok_rest : ∀ l ∈ lines, (processRawLine l).isOk = true :=
      fun l hl => hok l (List.mem_cons_of_mem _ hl)
    cases hpl : processRawLine line with
    | error e => rw [hpl] at hok_line; simp [Except.isOk, Except.toBool] at hok_line
    | ok ot =>
      cases ot with
      | none =>
        obtain ⟨st, hrun, hd⟩ := ih c hok_rest
        refine ⟨st, ?_, ?_⟩
        · rw [compress_raw_rdf_triple_file, hpl, hrun, acceptedTriples_cons_skip hpl]
        · rw [hd, acceptedTriples_cons_skip hpl]
      | some t =>
        have hsnd : (compress_raw_rdf_triple th c t).2 = hashTriple th t := rfl
        have hded : (compress_raw_rdf_triple th c t).1.dedup = c.dedup := rfl
        by_cases hmem : tph (hashTriple th t) ∈ c.dedup
        · obtain ⟨st, hrun, hd⟩ := ih (compress_raw_rdf_triple th c t).1 hok_rest
          refine ⟨st, ?_, ?_⟩
          · rw [compress_raw_rdf_triple_file, hpl]
            simp only [found_new_triple, hsnd, hded, if_pos hmem, if_true, hrun,
              acceptedTriples_cons_acc hpl, List.map_cons, emitFilter]
            simp [hmem]
          · rw [hd, hded, acceptedTriples_cons_acc hpl, List.map_cons, emitSeen,
              if_pos hmem]
        · obtain ⟨st, hrun, hd⟩ := ih
            { translations := (compress_raw_rdf_triple th c t).1.translations,
              dedup := tph (hashTriple th t) :: c.dedup } hok_rest
          refine ⟨st, ?_, ?_⟩
          · rw [compress_raw_rdf_triple_file, hpl]
            simp only [found_new_triple, hsnd, hded, if_neg hmem, if_true, hrun,
              acceptedTriples_cons_acc hpl, List.map_cons, emitFilter]
          · rw [hd, acceptedTriples_cons_acc hpl, List.map_cons, emitSeen, if_neg hmem]

theorem compressFiles_dedup (th : Bytes → Nat) (tph : CTriple → Nat)
    (files : List (List Bytes)) (c : RdfTripleCompressor)
    (hok : ∀ line ∈ files.flatten, (processRawLine line).isOk = true) :
    ∃ st outs, compressFiles th tph true c files = .ok (st, outs) ∧
      outs.flatten
        = emitFilter tph c.dedup ((acceptedTriples files.flatten).map (hashTriple th)) ∧
      st.dedup = emitSeen tph c.dedup ((acceptedTriples files.flatten).map (hashTriple th)) := by
  induction files generalizing c with
  | nil => exact ⟨c, [], rfl, rfl, rfl⟩
  | cons f fs ih =>
    have hok_f : ∀ line ∈ f, (processRawLine line).isOk = true := by
      intro l hl
      exact hok l (by rw [List.flatten_cons]; exact List.mem_append_left _ hl)
    have hok_fs : ∀ line ∈ fs.flatten, (processRawLine line).isOk = true := by
      intro l hl
      exact hok l (by rw [List.flatten_cons]; exact List.mem_append_right _ hl)
    obtain ⟨c1, hrun1, hd1⟩ := compress_raw_fold_dedup th tph f c hok_f
    obtain ⟨st, outs, hruns, hflat, hdst⟩ := ih c1 hok_fs
    refine ⟨st, emitFilter tph c.dedup ((acceptedTriples f).map (hashTriple th)) :: outs,
      ?_, ?_, ?_⟩
    · simp only [compressFiles, hrun1, hruns]
    · rw [List.flatten_cons, hflat, hd1, List.flatten_cons, acceptedTriples_append,
        List.map_append, emitFilter_append]
    · rw [hdst, hd1, List.flatten_cons, acceptedTriples_append, List.map_append,
        emitSeen_append]

theorem emitFilter_eq_firstOccurAux (tph : CTriple → Nat) (seen ts : List CTriple)
    (hinj : ∀ x ∈ seen ++ ts, ∀ y ∈ seen ++ ts, tph x = tph y → x = y) :
    emitFilter tph (seen.map tph) ts = firstOccurAux seen ts := by
  induction ts generalizing seen with
  | nil => rfl
  | cons t ts ih =>
    have hmem_iff : tph t ∈ seen.map tph ↔ t ∈ seen := by
      constructor
      · intro h
        obtain ⟨u, hu, hut⟩ := List.mem_map.mp h
        have : u = t := hinj u (List.mem_append_left _ hu) t
          (List.mem_append_right _ (List.mem_cons_self _ _)) hut
        exact this ▸ hu
      · exact fun h => List.mem_map_of_mem _ h
    by_cases h : t ∈ seen
    · rw [emitFilter, if_pos (hmem_iff.mpr h), firstOccurAux, if_pos h]
      refine ih seen fun x hx y hy hxy => hinj x ?_ y ?_ hxy <;>
        first
          | (simp only [List.mem_append, List.mem_cons] at hx ⊢; tauto)
          | (simp only [List.mem_append, List.mem_cons] at hy ⊢; tauto)
    · rw [emitFilter, if_neg (fun hc => h (hmem_iff.mp hc)), firstOccurAux, if_neg h]
      have hstep : (t :: seen).map tph = tph t :: seen.map tph := rfl
      rw [← hstep]
      refine congrArg (t :: ·) (ih (t :: seen) fun x hx y hy hxy => hinj x ?_ y ?_ hxy) <;>
        first
          | (simp only [List.mem_append, List.mem_cons] at hx ⊢; tauto)
          | (simp only [List.mem_append, List.mem_cons] at hy ⊢; tauto)

theorem firstOccurAux_map {A B : Type} [DecidableEq A] [DecidableEq B] (f : A → B)
    (seen l : List A)
    (hinj : ∀ x ∈ seen ++ l, ∀ y ∈ seen ++ l, f x = f y → x = y) :
    firstOccurAux (seen.map f) (l.map f) = (firstOccurAux seen l).map f := by
  induction l generalizing seen with
  | nil => rfl
  | cons x xs ih =>
    have hmem_iff : f x ∈ seen.map f ↔ x ∈ seen := by
      constructor
      · intro h
        obtain ⟨u, hu, hux⟩ := List.mem_map.mp h
        have : u = x := hinj u (List.mem_append_left _ hu) x
          (List.mem_append_right _ (List.mem_cons_self _ _)) hux
        exact this ▸ hu
      · exact fun h => List.mem_map_of_mem _ h
    by_cases h : x ∈ seen
    · rw [List.map_cons, firstOccurAux, if_pos (hmem_iff.mpr h), firstOccurAux, if_pos h]
      refine ih seen fun a ha y hy hxy => hinj a ?_ y ?_ hxy <;>
        first
          | (simp only [List.mem_append, List.mem_cons] at ha ⊢; tauto)
          | (simp only [List.mem_append, List.mem_cons] at hy ⊢; tauto)
    · rw [List.map_cons, firstOccurAux, if_neg (fun hc => h (hmem_iff.mp hc)),
        firstOccurAux, if_neg h, List.map_cons]
      have hstep : (x :: seen).map f = f x :: seen.map f := rfl
      rw [← hstep]
      refine congrArg (f x :: ·) (ih (x :: seen) fun a ha y hy hxy => hinj a ?_ y ?_ hxy) <;>
        first
          | (simp only [List.mem_append, List.mem_cons] at ha ⊢; tauto)
          | (simp only [List.mem_append, List.mem_cons] at hy ⊢; tauto)

theorem firstOccurAux_subset {A : Type} [DecidableEq A] {seen l : List A} {x : A}
    (h : x ∈ firstOccurAux seen l) : x ∈ l := by
  induction l generalizing seen with
  | nil => simp [firstOccurAux] at h
  | cons y ys ih =>
    rw [firstOccurAux] at h
    split_ifs at h with h1
    · exact List.mem_cons_of_mem _ (ih h)
    · rcases List.mem_cons.mp h with rfl | h2
      · exact List.mem_cons_self _ _
      · exact List.mem_cons_of_mem _ (ih h2)

theorem firstOccurAux_not_mem_seen {A : Type} [DecidableEq A] {seen l : List A} {x : A}
    (h : x ∈ firstOccurAux seen l) : x ∉ seen := by
  induction l generalizing seen with
  | nil => simp [firstOccurAux] at h
  | cons y ys ih =>
    rw [firstOccurAux] at h
    split_ifs at h with h1
    · exact ih h
    · rcases List.mem_cons.mp h with rfl | h2
      · exact h1
      · intro hx
        exact ih h2 (List.mem_cons_of_mem _ hx)

theorem firstOccurAux_nodup {A : Type} [DecidableEq A] (seen l : List A) :
    (firstOccurAux seen l).Nodup := by
  induction l generalizing seen with
  | nil => exact List.nodup_nil
  | cons x xs ih =>
    rw [firstOccurAux]
    split_ifs with h1
    · exact ih seen
    · refine List.Nodup.cons ?_ (ih (x :: seen))
      intro hx
      exact firstOccurAux_not_mem_seen hx (List.mem_cons_self _ _)

/-- C6: with `dedup = true`, across all input files of one compressor
instance (the dedup state persists between files), the emitted records are
exactly one per distinct accepted triple, in the order of each triple's
first occurrence in the concatenated input — given collision-free term and
triple hashes on this input. -/
theorem compress_dedup_first_occurrence (th : Bytes → Nat) (tph : CTriple → Nat)
    (files : List (List Bytes)) (m0 : Translations)
    (hok : ∀ line ∈ files.flatten, (processRawLine line).isOk = true)
    (hinj_th : ∀ a ∈ rawTerms files.flatten, ∀ b ∈ rawTerms files.flatten,
      th a = th b → a = b)
    (hinj_tph : ∀ x ∈ (acceptedTriples files.flatten).map (hashTriple th),
      ∀ y ∈ (acceptedTriples files.flatten).map (hashTriple th), tph x = tph y → x = y) :
    ∃ st outs, compressFiles th tph true ⟨m0, []⟩ files = .ok (st, outs) ∧
      outs.flatten = (firstOccur (acceptedTriples files.flatten)).map (hashTriple th) ∧
      outs.flatten.Nodup := by
  obtain ⟨st, outs, hrun, hflat, _⟩ := compressFiles_dedup th tph files ⟨m0, []⟩ hok
  have hash_inj : ∀ x ∈ acceptedTriples files.flatten, ∀ y ∈ acceptedTriples files.flatten,
      hashTriple th x = hashTriple th y → x = y := by
    intro x hx y hy hxy
    obtain ⟨hx1, hx2, hx3⟩ := mem_rawTerms_of_accepted hx
    obtain ⟨hy1, hy2, hy3⟩ := mem_rawTerms_of_accepted hy
    have h1 : th x.1 = th y.1 := congrArg (fun z : CTriple => z.1) hxy
    have h2 : th x.2.1 = th y.2.1 := congrArg (fun z : CTriple => z.2.1) hxy
    have h3 : th x.2.2 = th y.2.2 := congrArg (fun z : CTriple => z.2.2) hxy
    have e1 := hinj_th x.1 hx1 y.1 hy1 h1
    have e2 := hinj_th x.2.1 hx2 y.2.1 hy2 h2
    have e3 := hinj_th x.2.2 hx3 y.2.2 hy3 h3
    exact Prod.ext e1 (Prod.ext e2 e3)
  have hemit : emitFilter tph (([] : List CTriple).map tph)
      ((acceptedTriples files.flatten).map (hashTriple th))
      = firstOccurAux ([] : List CTriple)
          ((acceptedTriples files.flatten).map (hashTriple th)) :=
    emitFilter_eq_firstOccurAux tph [] _ (by simpa using hinj_tph)
  have hmapcomm : firstOccurAux (([] : List RawTriple).map (hashTriple th))
      ((acceptedTriples files.flatten).map (hashTriple th))
      = (firstOccurAux ([] : List RawTriple)
          (acceptedTriples files.flatten)).map (hashTriple th) :=
    firstOccurAux_map (hashTriple th) [] _ (by simpa using hash_inj)
  have hout : outs.flatten
      = (firstOccur (acceptedTriples files.flatten)).map (hashTriple th) := by
    rw [hflat]
    rw [show (⟨m0, []⟩ : RdfTripleCompressor).dedup
      = (([] : List CTriple).map tph) from rfl]
    rw [hemit]
    rw [show ([] : List CTriple) = (([] : List RawTriple).map (hashTriple th)) from rfl]
    rw [hmapcomm, firstOccur]
  refine ⟨st, outs, hrun, hout, ?_⟩
  rw [hout]
  refine List.Nodup.map_on ?_ (firstOccurAux_nodup [] _)
  intro x hx y hy hxy
  exact hash_inj x (firstOccurAux_subset hx) y (firstOccurAux_subset hy) hxy

/-- Witness for C6: two files sharing a repeated triple; the repeats are
suppressed across the file boundary and survivors keep first-occurrence
order. -/
theorem compress_dedup_first_occurrence_witness :
    (∀ line ∈ ([[bs "<s> <pp> <ooo> .", bs "<s> <pp> <ooo> ."],
          [bs "<s> <pp> <ooo> .", bs "<s> <pp> <qqqq> ."]] : List (List Bytes)).flatten,
        (processRawLine line).isOk = true) ∧
      (∀ a ∈ rawTerms ([[bs "<s> <pp> <ooo> .", bs "<s> <pp> <ooo> ."],
            [bs "<s> <pp> <ooo> .", bs "<s> <pp> <qqqq> ."]] : List (List Bytes)).flatten,
        ∀ b ∈ rawTerms ([[bs "<s> <pp> <ooo> .", bs "<s> <pp> <ooo> ."],
            [bs "<s> <pp> <ooo> .", bs "<s> <pp> <qqqq> ."]] : List (List Bytes)).flatten,
          a.length = b.length → a = b) ∧
      (∀ x ∈ (acceptedTriples ([[bs "<s> <pp> <ooo> .", bs "<s> <pp> <ooo> ."],
            [bs "<s> <pp> <ooo> .", bs "<s> <pp> <qqqq> ."]] :
              List (List Bytes)).flatten).map (hashTriple fun b => b.length),
        ∀ y ∈ (acceptedTriples ([[bs "<s> <pp> <ooo> .", bs "<s> <pp> <ooo> ."],
            [bs "<s> <pp> <ooo> .", bs "<s> <pp> <qqqq> ."]] :
              List (List Bytes)).flatten).map (hashTriple fun b => b.length),
          x.1 + 100 * x.2.1 + 10000 * x.2.2 = y.1 + 100 * y.2.1 + 10000 * y.2.2 → x = y) ∧
      ∃ st outs,
        compressFiles (fun b => b.length) (fun t => t.1 + 100 * t.2.1 + 10000 * t.2.2) true
            ⟨[], []⟩ [[bs "<s> <pp> <ooo> .", bs "<s> <pp> <ooo> ."],
              [bs "<s> <pp> <ooo> .", bs "<s> <pp> <qqqq> ."]] = .ok (st, outs) ∧
          outs.flatten
            = (firstOccur (acceptedTriples ([[bs "<s> <pp> <ooo> .", bs "<s> <pp> <ooo> ."],
                [bs "<s> <pp> <ooo> .", bs "<s> <pp> <qqqq> ."]] :
                  List (List Bytes)).flatten)).map (hashTriple fun b => b.length) ∧
          outs.flatten.Nodup :=
  ⟨by decide, by decide, by decide,
    compress_dedup_first_occurrence (fun b => b.length)
      (fun t => t.1 + 100 * t.2.1 + 10000 * t.2.2) _ [] (by decide) (by decide) (by decide)⟩

end SparqlGen
